import Mathlib

/-!
A shallow embedding of the `ENRManager` core of the `ddht` repository
(`ddht/enr_manager.py`) together with the collaborators it relies on
(record signing, identity derivation, and the node-record store), and
proofs of the behavioural properties stated about it.

Byte strings are modelled as `String`; key/value maps as association
lists with Python-`dict` insertion semantics (insert replaces an
existing key in place, otherwise appends, so later pairs win).
-/

namespace DDHT

abbrev Bytes := String

/-- An ENR key/value pair, mirroring `ddht.typing.ENR_KV`. -/
abbrev ENR_KV := Bytes × Bytes

/-- Lookup of a key in an association list (Python `mapping[key]`,
returning `none` where Python raises `KeyError`). -/
def lookupKV : List ENR_KV → Bytes → Option Bytes
  | [], _ => none
  | p :: rest, k => if p.1 = k then some p.2 else lookupKV rest k

/-- Python `key in mapping`. -/
def containsKey (m : List ENR_KV) (k : Bytes) : Bool :=
  (lookupKV m k).isSome

/-- One step of Python-`dict` insertion: replace the first binding of the
key in place when present, otherwise append the pair at the end. -/
def insertKV : List ENR_KV → ENR_KV → List ENR_KV
  | [], p => [p]
  | q :: rest, p => if q.1 = p.1 then p :: rest else q :: insertKV rest p

/-- `eth_utils.toolz.merge(base, upd)`: the pairs of `upd` folded into
`base`, pairs of `upd` overriding `base` on key collision.  Folding raw
pair lists also absorbs Python `dict(pairs)` deduplication (later
occurrences of a duplicated key win). -/
def mergeKV (base upd : List ENR_KV) : List ENR_KV :=
  upd.foldl insertKV base

/-- The value a Python `dict` built from the pair list would hold for a
key (last occurrence of the key wins). -/
def dictGet (upd : List ENR_KV) (k : Bytes) : Option Bytes :=
  lookupKV (mergeKV [] upd) k

/-- Byte-wise (shortlex-style) order on character lists, the order of the
corresponding byte strings. -/
def charListLe : List Char → List Char → Bool
  | [], _ => true
  | _ :: _, [] => false
  | c :: cs, d :: ds =>
    if c.toNat < d.toNat then true
    else if d.toNat < c.toNat then false
    else charListLe cs ds

/-- Byte-string order on keys, used for canonical signing order. -/
def bytesLe (a b : Bytes) : Bool :=
  charListLe a.data b.data

/-- Insertion into a key-sorted list, used for canonical signing order. -/
def insertSorted (p : ENR_KV) : List ENR_KV → List ENR_KV
  | [] => [p]
  | q :: rest => if bytesLe p.1 q.1 then p :: q :: rest else q :: insertSorted p rest

/-- Key/value pairs in the canonical sort order of their keys. -/
def sortByKey (l : List ENR_KV) : List ENR_KV :=
  l.foldr insertSorted []

/-- Modelled from the spec: the private-key object (`eth_keys.keys.PrivateKey`,
not part of the sources) exposing its raw bytes. -/
structure PrivateKey where
  keyBytes : Bytes
deriving DecidableEq

/-- Modelled from the spec: `private_key.public_key.to_compressed_bytes()`,
a deterministic function of the private key. -/
def compressedPubKey (pk : PrivateKey) : Bytes :=
  "pub:" ++ pk.keyBytes

/-- Modelled from the spec: key material is malformed (and signing fails)
exactly when the raw key bytes are degenerate; empty bytes stand in for
malformed key material. -/
def wellFormedKey (pk : PrivateKey) : Bool :=
  pk.keyBytes != ""

/-- Modelled from the spec: the canonical encoding of
(sequence number, key/value pairs in canonical key-sort order) that
signatures are computed over. -/
def canonicalEncoding (seq : Nat) (kv : List ENR_KV) : Bytes :=
  toString seq ++ ";" ++
    String.intercalate ";" ((sortByKey kv).map (fun p => p.1 ++ "=" ++ p.2))

/-- Modelled from the spec: the identity scheme's signing primitive.  It
signs the canonical encoding with the private key and fails (a
`SigningFailure`) on malformed key material. -/
def signRecord (pk : PrivateKey) (seq : Nat) (kv : List ENR_KV) : Except String Bytes :=
  if wellFormedKey pk then
    Except.ok ("sig[" ++ canonicalEncoding seq kv ++ "|" ++ pk.keyBytes ++ "]")
  else
    Except.error "SigningFailure"

/-- A signed node record (`ddht.enr.ENR`): sequence number, key/value
pairs, and a signature. -/
structure ENR where
  sequence_number : Nat
  kv_pairs : List ENR_KV
  signature : Bytes
deriving DecidableEq

/-- Modelled from the spec: `UnsignedENR(...).to_signed_enr(private_key)` —
sign the unsigned record, propagating any signing failure. -/
def toSignedEnr (seq : Nat) (kv : List ENR_KV) (pk : PrivateKey) : Except String ENR :=
  (signRecord pk seq kv).map (fun s => { sequence_number := seq, kv_pairs := kv, signature := s })

/-- Modelled from the spec: the identity derived from a record's
public-key field (`b"secp256k1"`). -/
def mkNodeId : Option Bytes → Bytes
  | some pub => "node:" ++ pub
  | none => "node:?"

/-- Modelled from the spec: `enr.node_id`, derived deterministically from
the record's public-key field via the identity scheme. -/
def nodeId (enr : ENR) : Bytes :=
  mkNodeId (lookupKV enr.kv_pairs "secp256k1")

/-- Modelled from the spec: the record store (`NodeDBAPI`), a mapping
from identity to the most recently stored signed record. -/
abbrev NodeDB := List (Bytes × ENR)

/-- Modelled from the spec: `node_db.get_enr(node_id)`; `none` where the
Python store raises `KeyError` (NotFound). -/
def NodeDB.get_enr : NodeDB → Bytes → Option ENR
  | [], _ => none
  | p :: rest, nid => if p.1 = nid then some p.2 else NodeDB.get_enr rest nid

/-- Modelled from the spec: `node_db.set_enr(enr)` — unconditional
overwrite of the entry stored under the record's own identity. -/
def NodeDB.set_enr : NodeDB → ENR → NodeDB
  | [], e => [(nodeId e, e)]
  | p :: rest, e => if p.1 = nodeId e then (nodeId e, e) :: rest else p :: NodeDB.set_enr rest e

/-- The mutable state of an `ENRManager`: the store it writes through to,
its private key, its current record, and its derived identity. -/
structure ENRManagerState where
  node_db : NodeDB
  private_key : PrivateKey
  enr : ENR
  node_id : Bytes
deriving DecidableEq

/-- `enr_manager.py` lines 44-50: identity-scheme defaults, injected only
when the caller's pairs do not already specify the scheme key `b"id"`. -/
def identityKvPairs (pk : PrivateKey) (kvp : List ENR_KV) : List ENR_KV :=
  if containsKey kvp "id" then []
  else [("id", "v4"), ("secp256k1", compressedPubKey pk)]

/-- `enr_manager.py` line 54: `merge(identity_kv_pairs, kv_pairs)` —
the key/value set of the minimal record, caller pairs taking precedence. -/
def minimalKv (pk : PrivateKey) (kvp : List ENR_KV) : List ENR_KV :=
  mergeKV (identityKvPairs pk kvp) kvp

/-- `enr_manager.py` lines 52-56: the signed minimal record at sequence
number 1. -/
def ENRManager.minimalEnr (pk : PrivateKey) (kvp : List ENR_KV) : Except String ENR :=
  toSignedEnr 1 (minimalKv pk kvp) pk

/-- The identity the constructor derives (the minimal record's node id);
it does not depend on the signature. -/
def ENRManager.derivedIdentity (pk : PrivateKey) (kvp : List ENR_KV) : Bytes :=
  mkNodeId (lookupKV (minimalKv pk kvp) "secp256k1")

/-- `enr_manager.py` lines 74-76: whether any supplied pair is absent
from the current record or present with a different value. -/
def anyDiffers (enr : ENR) (kv_pairs : List ENR_KV) : Bool :=
  kv_pairs.any (fun p => !(containsKey enr.kv_pairs p.1) || lookupKV enr.kv_pairs p.1 != some p.2)

/-- `ENRManager.update` (`enr_manager.py` lines 73-84).  Returns the state
after the call together with the call's result: the (possibly unchanged)
current record, or the propagated signing error, in which case neither
the in-memory record nor the store is touched. -/
def ENRManager.update (st : ENRManagerState) (kv_pairs : List ENR_KV) :
    ENRManagerState × Except String ENR :=
  if anyDiffers st.enr kv_pairs then
    match toSignedEnr (st.enr.sequence_number + 1)
        (mergeKV st.enr.kv_pairs kv_pairs) st.private_key with
    | Except.ok newEnr =>
        ({ st with enr := newEnr, node_db := NodeDB.set_enr st.node_db newEnr },
         Except.ok newEnr)
    | Except.error e => (st, Except.error e)
  else
    (st, Except.ok st.enr)

/-- `ENRManager.__init__` (`enr_manager.py` lines 29-67): build and sign
the minimal record, derive the identity, then either persist the minimal
record (store miss, creation) or make the stored record current and
replay the minimal record's pairs through `update` (store hit,
reconciliation). -/
def ENRManager.init (node_db : NodeDB) (private_key : PrivateKey)
    (kv_pairs : Option (List ENR_KV)) : Except String ENRManagerState :=
  match ENRManager.minimalEnr private_key (kv_pairs.getD []) with
  | Except.error e => Except.error e
  | Except.ok minimal_enr =>
    match NodeDB.get_enr node_db (nodeId minimal_enr) with
    | none =>
        Except.ok { node_db := NodeDB.set_enr node_db minimal_enr,
                    private_key := private_key, enr := minimal_enr,
                    node_id := nodeId minimal_enr }
    | some base_enr =>
        match ENRManager.update { node_db := node_db, private_key := private_key,
                                  enr := base_enr, node_id := nodeId minimal_enr }
            minimal_enr.kv_pairs with
        | (st1, Except.ok _) => Except.ok st1
        | (_, Except.error e) => Except.error e

/-- The constructor as claim C1 reads it: on a store hit, the caller's
*original* pairs (not the minimal record's full pair set) are replayed
through `update`.  Stated from the claim's words, for comparison with
`ENRManager.init`. -/
def ENRManager.initReplayingCallerPairs (node_db : NodeDB) (private_key : PrivateKey)
    (kv_pairs : Option (List ENR_KV)) : Except String ENRManagerState :=
  match ENRManager.minimalEnr private_key (kv_pairs.getD []) with
  | Except.error e => Except.error e
  | Except.ok minimal_enr =>
    match NodeDB.get_enr node_db (nodeId minimal_enr) with
    | none =>
        Except.ok { node_db := NodeDB.set_enr node_db minimal_enr,
                    private_key := private_key, enr := minimal_enr,
                    node_id := nodeId minimal_enr }
    | some base_enr =>
        match ENRManager.update { node_db := node_db, private_key := private_key,
                                  enr := base_enr, node_id := nodeId minimal_enr }
            (kv_pairs.getD []) with
        | (st1, Except.ok _) => Except.ok st1
        | (_, Except.error e) => Except.error e

/-- `channel.send(kv_pair)`: the zero-buffer memory channel observed as
the FIFO list of pairs handed over so far. -/
def channelSend (q : List ENR_KV) (p : ENR_KV) : List ENR_KV :=
  q ++ [p]

/-- `ENRManager.async_update` (`enr_manager.py` lines 86-89): send each
supplied pair into the channel, one at a time, in call order; the
manager state itself is untouched. -/
def ENRManager.async_update (st : ENRManagerState) (queue : List ENR_KV)
    (kv_pairs : List ENR_KV) : ENRManagerState × List ENR_KV :=
  (st, kv_pairs.foldl channelSend queue)

/-- `ENRManager.run` (`enr_manager.py` lines 91-94): drain the queue in
FIFO order, applying each received pair via `update` with a
single-element pair list; an error escaping `update` stops the loop. -/
def ENRManager.runLoop (st : ENRManagerState) :
    List ENR_KV → ENRManagerState × Except String Unit
  | [] => (st, Except.ok ())
  | kv :: rest =>
    match ENRManager.update st [kv] with
    | (st2, Except.ok _) => ENRManager.runLoop st2 rest
    | (st2, Except.error e) => (st2, Except.error e)

/-- A whole sequence of synchronous `update` calls applied to one manager. -/
def applyUpdates (st : ENRManagerState) (calls : List (List ENR_KV)) : ENRManagerState :=
  calls.foldl (fun s c => (ENRManager.update s c).1) st

/-- Keys of an association list are pairwise distinct. -/
def NodupKeys (l : List ENR_KV) : Prop :=
  (l.map Prod.fst).Nodup

/-- The store entry under the manager's derived identity coincides with
the manager's in-memory current record. -/
def StoreCoherent (st : ENRManagerState) : Prop :=
  NodeDB.get_enr st.node_db st.node_id = some st.enr

instance (st : ENRManagerState) : Decidable (StoreCoherent st) :=
  inferInstanceAs (Decidable (NodeDB.get_enr st.node_db st.node_id = some st.enr))

/-- Every record held by the store sits under its own derived identity
(true of any store populated through `NodeDB.set_enr`). -/
def DBWellKeyed (db : NodeDB) : Prop :=
  ∀ nid e, NodeDB.get_enr db nid = some e → nodeId e = nid

/-! ### Association-list lemmas -/

theorem lookupKV_insertKV (m : List ENR_KV) (p : ENR_KV) (k : Bytes) :
    lookupKV (insertKV m p) k = if p.1 = k then some p.2 else lookupKV m k := by
  induction m with
  | nil => simp [insertKV, lookupKV]
  | cons q rest ih =>
    by_cases hq : q.1 = p.1
    · have he : insertKV (q :: rest) p = p :: rest := by simp [insertKV, hq]
      rw [he]
      by_cases hk : p.1 = k
      · simp [lookupKV, hk]
      · have hqk : ¬ q.1 = k := fun h => hk (hq.symm.trans h)
        simp [lookupKV, hk, hqk]
    · have he : insertKV (q :: rest) p = q :: insertKV rest p := by simp [insertKV, hq]
      rw [he]
      by_cases hqk : q.1 = k
      · have hk : ¬ p.1 = k := fun h => hq (hqk.trans h.symm)
        simp [lookupKV, hqk, hk]
      · simp [lookupKV, hqk, ih]

theorem mergeKV_nil (base : List ENR_KV) : mergeKV base [] = base := rfl

theorem mergeKV_cons (base : List ENR_KV) (p : ENR_KV) (rest : List ENR_KV) :
    mergeKV base (p :: rest) = mergeKV (insertKV base p) rest := rfl

theorem dictGet_cons (p : ENR_KV) (rest : List ENR_KV) (k : Bytes) :
    dictGet (p :: rest) k = lookupKV (mergeKV [p] rest) k := rfl

theorem lookupKV_mergeKV (upd : List ENR_KV) (base : List ENR_KV) (k : Bytes) :
    lookupKV (mergeKV base upd) k =
      match dictGet upd k with
      | some v => some v
      | none => lookupKV base k := by
  induction upd generalizing base with
  | nil => simp [mergeKV_nil, dictGet, mergeKV, lookupKV]
  | cons p rest ih =>
    rw [mergeKV_cons, ih, dictGet_cons, ih [p]]
    cases h : dictGet rest k with
    | some v => simp
    | none =>
      rw [lookupKV_insertKV]
      by_cases hp : p.1 = k <;> simp [lookupKV, hp]

theorem isSome_dictGet (upd : List ENR_KV) (k : Bytes) :
    (dictGet upd k).isSome = (lookupKV upd k).isSome := by
  induction upd with
  | nil => rfl
  | cons p rest ih =>
    rw [dictGet_cons, lookupKV_mergeKV]
    cases h : dictGet rest k with
    | some v =>
      have : (lookupKV rest k).isSome = true := by rw [← ih, h]; rfl
      by_cases hp : p.1 = k <;> simp [lookupKV, hp, this]
    | none =>
      have : (lookupKV rest k).isSome = false := by rw [← ih, h]; rfl
      by_cases hp : p.1 = k <;> simp [lookupKV, hp, this]

theorem containsKey_mergeKV (base upd : List ENR_KV) (k : Bytes) :
    containsKey (mergeKV base upd) k = (containsKey base k || containsKey upd k) := by
  unfold containsKey
  rw [lookupKV_mergeKV]
  cases h : dictGet upd k with
  | some v =>
    have hu : (lookupKV upd k).isSome = true := by rw [← isSome_dictGet, h]; rfl
    simp [hu]
  | none =>
    have hu : (lookupKV upd k).isSome = false := by rw [← isSome_dictGet, h]; rfl
    simp [hu]

theorem lookupKV_eq_none_iff (l : List ENR_KV) (k : Bytes) :
    lookupKV l k = none ↔ k ∉ l.map Prod.fst := by
  induction l with
  | nil => simp [lookupKV]
  | cons p rest ih =>
    by_cases hp : p.1 = k
    · simp [lookupKV, hp]
    · have he : lookupKV (p :: rest) k = lookupKV rest k := by simp [lookupKV, hp]
      rw [he, ih]
      simp only [List.map_cons, List.mem_cons, not_or]
      constructor
      · exact fun h => ⟨fun hc => hp hc.symm, h⟩
      · exact fun h => h.2

theorem mem_keys_insertKV (m : List ENR_KV) (p : ENR_KV) (k : Bytes)
    (h : k ∈ (insertKV m p).map Prod.fst) : k ∈ m.map Prod.fst ∨ k = p.1 := by
  induction m with
  | nil =>
    simp only [insertKV, List.map_cons, List.map_nil, List.mem_singleton] at h
    exact Or.inr h
  | cons q rest ih =>
    by_cases hq : q.1 = p.1
    · have he : insertKV (q :: rest) p = p :: rest := by simp [insertKV, hq]
      rw [he] at h
      simp only [List.map_cons, List.mem_cons] at h ⊢
      rcases h with h | h
      · exact Or.inr h
      · exact Or.inl (Or.inr h)
    · have he : insertKV (q :: rest) p = q :: insertKV rest p := by simp [insertKV, hq]
      rw [he] at h
      simp only [List.map_cons, List.mem_cons] at h ⊢
      rcases h with h | h
      · exact Or.inl (Or.inl h)
      · rcases ih h with h2 | h2
        · exact Or.inl (Or.inr h2)
        · exact Or.inr h2

theorem nodupKeys_insertKV (m : List ENR_KV) (p : ENR_KV) (h : NodupKeys m) :
    NodupKeys (insertKV m p) := by
  induction m with
  | nil =>
    unfold NodupKeys
    simp [insertKV]
  | cons q rest ih =>
    unfold NodupKeys at h ⊢
    simp only [List.map_cons, List.nodup_cons] at h
    by_cases hq : q.1 = p.1
    · have he : insertKV (q :: rest) p = p :: rest := by simp [insertKV, hq]
      rw [he]
      simp only [List.map_cons, List.nodup_cons]
      exact ⟨hq ▸ h.1, h.2⟩
    · have he : insertKV (q :: rest) p = q :: insertKV rest p := by simp [insertKV, hq]
      rw [he]
      simp only [List.map_cons, List.nodup_cons]
      have h3 := ih h.2
      unfold NodupKeys at h3
      refine ⟨?_, h3⟩
      intro hmem
      rcases mem_keys_insertKV rest p q.1 hmem with h2 | h2
      · exact h.1 h2
      · exact hq h2

theorem nodupKeys_mergeKV (upd base : List ENR_KV) (h : NodupKeys base) :
    NodupKeys (mergeKV base upd) := by
  induction upd generalizing base with
  | nil => exact h
  | cons p rest ih => exact ih (insertKV base p) (nodupKeys_insertKV base p h)

theorem dictGet_eq_lookupKV (l : List ENR_KV) (h : NodupKeys l) (k : Bytes) :
    dictGet l k = lookupKV l k := by
  induction l with
  | nil => rfl
  | cons p rest ih =>
    unfold NodupKeys at h
    simp only [List.map_cons, List.nodup_cons] at h
    rw [dictGet_cons, lookupKV_mergeKV]
    by_cases hp : p.1 = k
    · have hrest : lookupKV rest k = none :=
        (lookupKV_eq_none_iff rest k).mpr (hp ▸ h.1)
      rw [ih h.2, hrest]
      simp [lookupKV, hp]
    · rw [ih h.2]
      cases hr : lookupKV rest k with
      | some v => simp [lookupKV, hp, hr]
      | none => simp [lookupKV, hp, hr]

theorem nodupKeys_identityKvPairs (pk : PrivateKey) (kvp : List ENR_KV) :
    NodupKeys (identityKvPairs pk kvp) := by
  unfold identityKvPairs NodupKeys
  split <;> simp

theorem nodupKeys_minimalKv (pk : PrivateKey) (kvp : List ENR_KV) :
    NodupKeys (minimalKv pk kvp) :=
  nodupKeys_mergeKV kvp (identityKvPairs pk kvp) (nodupKeys_identityKvPairs pk kvp)

/-! ### Store lemmas -/

theorem get_enr_set_enr_self (db : NodeDB) (e : ENR) :
    NodeDB.get_enr (NodeDB.set_enr db e) (nodeId e) = some e := by
  induction db with
  | nil => simp [NodeDB.set_enr, NodeDB.get_enr]
  | cons p rest ih =>
    by_cases hp : p.1 = nodeId e
    · simp [NodeDB.set_enr, NodeDB.get_enr, hp]
    · simp [NodeDB.set_enr, NodeDB.get_enr, hp, ih]

/-! ### Signing and update lemmas -/

theorem toSignedEnr_of_wellFormed (seq : Nat) (kv : List ENR_KV) (pk : PrivateKey)
    (h : wellFormedKey pk = true) :
    toSignedEnr seq kv pk =
      Except.ok { sequence_number := seq, kv_pairs := kv,
                  signature := "sig[" ++ canonicalEncoding seq kv ++ "|" ++ pk.keyBytes ++ "]" } := by
  simp [toSignedEnr, signRecord, h, Except.map]

theorem toSignedEnr_ok (seq : Nat) (kv : List ENR_KV) (pk : PrivateKey) (e : ENR)
    (h : toSignedEnr seq kv pk = Except.ok e) :
    e.sequence_number = seq ∧ e.kv_pairs = kv ∧ wellFormedKey pk = true := by
  by_cases hw : wellFormedKey pk = true
  · rw [toSignedEnr_of_wellFormed seq kv pk hw] at h
    cases h
    exact ⟨rfl, rfl, hw⟩
  · simp [toSignedEnr, signRecord, hw, Except.map] at h

theorem anyDiffers_eq_false (enr : ENR) (ps : List ENR_KV)
    (h : ∀ p ∈ ps, lookupKV enr.kv_pairs p.1 = some p.2) :
    anyDiffers enr ps = false := by
  unfold anyDiffers
  rw [List.any_eq_false]
  intro p hp
  simp [containsKey, h p hp]

theorem update_of_no_change (st : ENRManagerState) (ps : List ENR_KV)
    (h : ∀ p ∈ ps, lookupKV st.enr.kv_pairs p.1 = some p.2) :
    ENRManager.update st ps = (st, Except.ok st.enr) := by
  unfold ENRManager.update
  rw [anyDiffers_eq_false st.enr ps h]
  simp

theorem update_seq_le (st : ENRManagerState) (ps : List ENR_KV) :
    st.enr.sequence_number ≤ ((ENRManager.update st ps).1).enr.sequence_number := by
  unfold ENRManager.update
  by_cases hd : anyDiffers st.enr ps
  · rw [if_pos hd]
    cases hs : toSignedEnr (st.enr.sequence_number + 1) (mergeKV st.enr.kv_pairs ps)
        st.private_key with
    | ok newEnr =>
      have := (toSignedEnr_ok _ _ _ _ hs).1
      simp [this]
    | error e => simp
  · rw [if_neg hd]

theorem update_effective_ok (st : ENRManagerState) (ps : List ENR_KV) (newEnr : ENR)
    (hd : anyDiffers st.enr ps = true)
    (hs : toSignedEnr (st.enr.sequence_number + 1) (mergeKV st.enr.kv_pairs ps)
        st.private_key = Except.ok newEnr) :
    ENRManager.update st ps =
      ({ st with enr := newEnr, node_db := NodeDB.set_enr st.node_db newEnr },
       Except.ok newEnr) := by
  unfold ENRManager.update
  rw [if_pos hd, hs]

theorem update_effective_error (st : ENRManagerState) (ps : List ENR_KV) (e : String)
    (hd : anyDiffers st.enr ps = true)
    (hs : toSignedEnr (st.enr.sequence_number + 1) (mergeKV st.enr.kv_pairs ps)
        st.private_key = Except.error e) :
    ENRManager.update st ps = (st, Except.error e) := by
  unfold ENRManager.update
  rw [if_pos hd, hs]

theorem update_not_effective (st : ENRManagerState) (ps : List ENR_KV)
    (hd : anyDiffers st.enr ps = false) :
    ENRManager.update st ps = (st, Except.ok st.enr) := by
  unfold ENRManager.update
  rw [hd]
  simp

theorem init_miss (db : NodeDB) (pk : PrivateKey) (kvp : Option (List ENR_KV)) (m : ENR)
    (hm : ENRManager.minimalEnr pk (kvp.getD []) = Except.ok m)
    (hb : NodeDB.get_enr db (nodeId m) = none) :
    ENRManager.init db pk kvp =
      Except.ok { node_db := NodeDB.set_enr db m, private_key := pk, enr := m,
                  node_id := nodeId m } := by
  simp only [ENRManager.init, hm, hb]

theorem init_hit (db : NodeDB) (pk : PrivateKey) (kvp : Option (List ENR_KV))
    (m base : ENR)
    (hm : ENRManager.minimalEnr pk (kvp.getD []) = Except.ok m)
    (hb : NodeDB.get_enr db (nodeId m) = some base) :
    ENRManager.init db pk kvp =
      (match ENRManager.update { node_db := db, private_key := pk, enr := base,
                                 node_id := nodeId m } m.kv_pairs with
       | (st1, Except.ok _) => Except.ok st1
       | (_, Except.error e) => Except.error e) := by
  simp only [ENRManager.init, hm, hb]

/-! ### Claim theorems -/

/-- Claim C2: for every manager state and every supplied pair list in which
each key is present in the current record with an equal value, `update`
returns the current record unchanged — same sequence number and same
signature — and performs no signing and no store write (the whole manager
state, store included, is untouched). -/
theorem update_idempotent (st : ENRManagerState) (ps : List ENR_KV)
    (h : ∀ p ∈ ps, lookupKV st.enr.kv_pairs p.1 = some p.2) :
    ENRManager.update st ps = (st, Except.ok st.enr) :=
  update_of_no_change st ps h

theorem update_idempotent_witness :
    ENRManager.update ⟨[], ⟨"k"⟩, ⟨3, [("a", "b")], "s"⟩, "n"⟩ [("a", "b")] =
      (⟨[], ⟨"k"⟩, ⟨3, [("a", "b")], "s"⟩, "n"⟩, Except.ok ⟨3, [("a", "b")], "s"⟩) :=
  update_idempotent ⟨[], ⟨"k"⟩, ⟨3, [("a", "b")], "s"⟩, "n"⟩ [("a", "b")] (by decide)

/-- Claim C3: each effective (non-idempotent) successful `update` produces
a record whose sequence number is exactly the previous one plus 1; over
any single call and any sequence of calls the sequence number never
decreases. -/
theorem update_sequence_monotone (st : ENRManagerState) (ps : List ENR_KV)
    (hd : anyDiffers st.enr ps = true)
    (hk : ((ENRManager.update st ps).2).isOk = true) :
    ((ENRManager.update st ps).1).enr.sequence_number = st.enr.sequence_number + 1 ∧
    (∀ s qs, s.enr.sequence_number ≤ ((ENRManager.update s qs).1).enr.sequence_number) ∧
    (∀ s calls, s.enr.sequence_number ≤ (applyUpdates s calls).enr.sequence_number) := by
  refine ⟨?_, update_seq_le, ?_⟩
  · cases hs : toSignedEnr (st.enr.sequence_number + 1) (mergeKV st.enr.kv_pairs ps)
        st.private_key with
    | ok newEnr =>
      rw [update_effective_ok st ps newEnr hd hs]
      exact (toSignedEnr_ok _ _ _ _ hs).1
    | error e =>
      rw [update_effective_error st ps e hd hs] at hk
      simp [Except.isOk, Except.toBool] at hk
  · intro s calls
    induction calls generalizing s with
    | nil => exact Nat.le_refl _
    | cons c rest ih =>
      exact Nat.le_trans (update_seq_le s c) (ih ((ENRManager.update s c).1))

theorem update_sequence_monotone_witness :
    ((ENRManager.update ⟨[], ⟨"k"⟩, ⟨3, [("a", "b")], "s"⟩, "n"⟩ [("c", "d")]).1).enr.sequence_number
      = 3 + 1 :=
  (update_sequence_monotone ⟨[], ⟨"k"⟩, ⟨3, [("a", "b")], "s"⟩, "n"⟩ [("c", "d")]
    (by decide) (by decide)).1

/-- Claim C4: for every effective successful `update [(k, v)]`, the new
record's key/value set is the old set with `k` bound to `v` and every
other key unchanged — covering both the key-absent case (old set plus
`k -> v`) and the different-value case (only `k` changes). -/
theorem update_merge_correct (st : ENRManagerState) (k v : Bytes)
    (hd : anyDiffers st.enr [(k, v)] = true)
    (hk : ((ENRManager.update st [(k, v)]).2).isOk = true) :
    ∀ k2, lookupKV ((ENRManager.update st [(k, v)]).1).enr.kv_pairs k2 =
      if k = k2 then some v else lookupKV st.enr.kv_pairs k2 := by
  intro k2
  cases hs : toSignedEnr (st.enr.sequence_number + 1) (mergeKV st.enr.kv_pairs [(k, v)])
      st.private_key with
  | ok newEnr =>
    rw [update_effective_ok st [(k, v)] newEnr hd hs]
    have hkv := (toSignedEnr_ok _ _ _ _ hs).2.1
    show lookupKV newEnr.kv_pairs k2 = _
    rw [hkv]
    exact lookupKV_insertKV st.enr.kv_pairs (k, v) k2
  | error e =>
    rw [update_effective_error st [(k, v)] e hd hs] at hk
    simp [Except.isOk, Except.toBool] at hk

theorem update_merge_correct_witness :
    lookupKV ((ENRManager.update ⟨[], ⟨"k"⟩, ⟨1, [("a", "b")], "s"⟩, "n"⟩
        [("c", "d")]).1).enr.kv_pairs "c" = some "d" ∧
    lookupKV ((ENRManager.update ⟨[], ⟨"k"⟩, ⟨1, [("a", "b")], "s"⟩, "n"⟩
        [("c", "d")]).1).enr.kv_pairs "a" = some "b" := by
  constructor
  · have h := update_merge_correct ⟨[], ⟨"k"⟩, ⟨1, [("a", "b")], "s"⟩, "n"⟩ "c" "d"
      (by decide) (by decide) "c"
    simp at h
    exact h
  · have h := update_merge_correct ⟨[], ⟨"k"⟩, ⟨1, [("a", "b")], "s"⟩, "n"⟩ "c" "d"
      (by decide) (by decide) "a"
    rw [h]
    decide

/-- Claim C8: if signing the newly built unsigned record fails during an
`update` call, the error propagates to the caller without retry, and the
whole manager state — in-memory current record and store alike — is left
exactly as it was. -/
theorem update_signing_failure_atomic (st : ENRManagerState) (ps : List ENR_KV) (e : String)
    (hd : anyDiffers st.enr ps = true)
    (hs : signRecord st.private_key (st.enr.sequence_number + 1)
        (mergeKV st.enr.kv_pairs ps) = Except.error e) :
    ENRManager.update st ps = (st, Except.error e) := by
  have hts : toSignedEnr (st.enr.sequence_number + 1) (mergeKV st.enr.kv_pairs ps)
      st.private_key = Except.error e := by
    simp [toSignedEnr, hs, Except.map]
  exact update_effective_error st ps e hd hts

theorem update_signing_failure_atomic_witness :
    ENRManager.update ⟨[], ⟨""⟩, ⟨1, [], "s"⟩, "n"⟩ [("a", "b")] =
      (⟨[], ⟨""⟩, ⟨1, [], "s"⟩, "n"⟩, Except.error "SigningFailure") :=
  update_signing_failure_atomic ⟨[], ⟨""⟩, ⟨1, [], "s"⟩, "n"⟩ [("a", "b")]
    "SigningFailure" (by decide) (by rfl)

/-- Claim C5: at construction, if the caller's pairs contain the scheme
key `b"id"` no defaults are injected; otherwise the scheme name and the
compressed public key are injected under their reserved keys; and the
minimal unsigned record is built at sequence number 1 from the injected
defaults merged with the caller's pairs, caller's pairs taking precedence
on key collision. -/
theorem init_default_injection (pk : PrivateKey) (kvp : List ENR_KV)
    (hw : wellFormedKey pk = true) :
    ∃ m, ENRManager.minimalEnr pk kvp = Except.ok m ∧
      m.sequence_number = 1 ∧
      m.kv_pairs = minimalKv pk kvp ∧
      (containsKey kvp "id" = true → identityKvPairs pk kvp = []) ∧
      (containsKey kvp "id" = false →
        identityKvPairs pk kvp = [("id", "v4"), ("secp256k1", compressedPubKey pk)]) ∧
      (∀ k, lookupKV (minimalKv pk kvp) k =
        match dictGet kvp k with
        | some v => some v
        | none => lookupKV (identityKvPairs pk kvp) k) := by
  refine ⟨_, toSignedEnr_of_wellFormed 1 (minimalKv pk kvp) pk hw, rfl, rfl, ?_, ?_, ?_⟩
  · intro h
    simp [identityKvPairs, h]
  · intro h
    simp [identityKvPairs, h]
  · intro k
    exact lookupKV_mergeKV kvp (identityKvPairs pk kvp) k

theorem init_default_injection_witness :
    wellFormedKey ⟨"k"⟩ = true ∧
    (∃ m, ENRManager.minimalEnr ⟨"k"⟩ [("foo", "bar")] = Except.ok m ∧
      m.sequence_number = 1 ∧
      m.kv_pairs = minimalKv ⟨"k"⟩ [("foo", "bar")] ∧
      (containsKey [("foo", "bar")] "id" = true →
        identityKvPairs ⟨"k"⟩ [("foo", "bar")] = []) ∧
      (containsKey [("foo", "bar")] "id" = false →
        identityKvPairs ⟨"k"⟩ [("foo", "bar")] =
          [("id", "v4"), ("secp256k1", compressedPubKey ⟨"k"⟩)]) ∧
      (∀ k, lookupKV (minimalKv ⟨"k"⟩ [("foo", "bar")]) k =
        match dictGet [("foo", "bar")] k with
        | some v => some v
        | none => lookupKV (identityKvPairs ⟨"k"⟩ [("foo", "bar")]) k)) :=
  ⟨by decide, init_default_injection ⟨"k"⟩ [("foo", "bar")] (by decide)⟩

/-- Claim C7: with a fresh store (lookup of the derived identity misses)
and no initial pairs, construction yields a current record at sequence
number 1 whose keys are exactly the scheme name under `b"id"` and the
compressed public key under `b"secp256k1"`, and the store then holds
exactly that record under the derived identity. -/
theorem init_creation_scenario (db : NodeDB) (pk : PrivateKey)
    (hw : wellFormedKey pk = true)
    (hmiss : NodeDB.get_enr db (ENRManager.derivedIdentity pk []) = none) :
    ∃ st, ENRManager.init db pk none = Except.ok st ∧
      st.enr.sequence_number = 1 ∧
      st.enr.kv_pairs = [("id", "v4"), ("secp256k1", compressedPubKey pk)] ∧
      st.node_id = ENRManager.derivedIdentity pk [] ∧
      st.node_db = NodeDB.set_enr db st.enr ∧
      NodeDB.get_enr st.node_db st.node_id = some st.enr := by
  have hm := toSignedEnr_of_wellFormed 1 (minimalKv pk []) pk hw
  refine ⟨_, init_miss db pk none _ hm hmiss, rfl, rfl, rfl, rfl, ?_⟩
  exact get_enr_set_enr_self db _

theorem init_creation_scenario_witness :
    wellFormedKey ⟨"k"⟩ = true ∧
    NodeDB.get_enr [] (ENRManager.derivedIdentity ⟨"k"⟩ []) = none ∧
    (∃ st, ENRManager.init [] ⟨"k"⟩ none = Except.ok st ∧
      st.enr.sequence_number = 1 ∧
      st.enr.kv_pairs = [("id", "v4"), ("secp256k1", compressedPubKey ⟨"k"⟩)] ∧
      st.node_id = ENRManager.derivedIdentity ⟨"k"⟩ [] ∧
      st.node_db = NodeDB.set_enr [] st.enr ∧
      NodeDB.get_enr st.node_db st.node_id = some st.enr) :=
  ⟨by decide, by rfl, init_creation_scenario [] ⟨"k"⟩ (by decide) (by rfl)⟩

/-- Claim C6: with the store holding a sequence-number-5 record for the
derived identity and the single initial pair `(b"foo", b"bar")` absent
from that record, construction yields a current record at sequence
number 6 containing `b"foo" -> b"bar"` together with all keys of the
prior record. -/
theorem init_reconciliation_scenario (db : NodeDB) (pk : PrivateKey) (base : ENR)
    (hw : wellFormedKey pk = true)
    (hhit : NodeDB.get_enr db (ENRManager.derivedIdentity pk [("foo", "bar")]) = some base)
    (hseq : base.sequence_number = 5)
    (hfoo : containsKey base.kv_pairs "foo" = false) :
    ∃ st, ENRManager.init db pk (some [("foo", "bar")]) = Except.ok st ∧
      st.enr.sequence_number = 6 ∧
      lookupKV st.enr.kv_pairs "foo" = some "bar" ∧
      (∀ k, containsKey base.kv_pairs k = true → containsKey st.enr.kv_pairs k = true) := by
  have hmin : minimalKv pk [("foo", "bar")] =
      [("id", "v4"), ("secp256k1", compressedPubKey pk), ("foo", "bar")] := by
    simp [minimalKv, identityKvPairs, containsKey, lookupKV, mergeKV, insertKV]
  obtain ⟨m, hm, hkv, hnid⟩ :
      ∃ m, ENRManager.minimalEnr pk [("foo", "bar")] = Except.ok m ∧
        m.kv_pairs = minimalKv pk [("foo", "bar")] ∧
        nodeId m = ENRManager.derivedIdentity pk [("foo", "bar")] :=
    ⟨_, toSignedEnr_of_wellFormed 1 (minimalKv pk [("foo", "bar")]) pk hw, rfl, rfl⟩
  have hd : anyDiffers base m.kv_pairs = true := by
    rw [hkv, hmin]
    unfold anyDiffers
    rw [List.any_eq_true]
    refine ⟨("foo", "bar"), by simp, ?_⟩
    rw [Bool.or_eq_true]
    exact Or.inl (by rw [hfoo]; rfl)
  have hs := toSignedEnr_of_wellFormed (base.sequence_number + 1)
    (mergeKV base.kv_pairs m.kv_pairs) pk hw
  have hupd := update_effective_ok
    { node_db := db, private_key := pk, enr := base, node_id := nodeId m }
    m.kv_pairs _ hd hs
  have hinit := init_hit db pk (some [("foo", "bar")]) m base hm (by rw [hnid]; exact hhit)
  rw [hupd] at hinit
  refine ⟨_, hinit, ?_, ?_, ?_⟩
  · show base.sequence_number + 1 = 6
    rw [hseq]
  · show lookupKV (mergeKV base.kv_pairs m.kv_pairs) "foo" = some "bar"
    rw [hkv, hmin]
    rw [show mergeKV base.kv_pairs
          [("id", "v4"), ("secp256k1", compressedPubKey pk), ("foo", "bar")] =
        insertKV (insertKV (insertKV base.kv_pairs ("id", "v4"))
          ("secp256k1", compressedPubKey pk)) ("foo", "bar") from rfl]
    rw [lookupKV_insertKV]
    simp
  · intro k hk
    show containsKey (mergeKV base.kv_pairs m.kv_pairs) k = true
    rw [containsKey_mergeKV, hk]
    rfl

theorem init_reconciliation_scenario_witness :
    wellFormedKey ⟨"k"⟩ = true ∧
    NodeDB.get_enr [("node:pub:k", ⟨5, [("secp256k1", "pub:k"), ("q", "r")], "s5"⟩)]
      (ENRManager.derivedIdentity ⟨"k"⟩ [("foo", "bar")]) =
        some ⟨5, [("secp256k1", "pub:k"), ("q", "r")], "s5"⟩ ∧
    (∃ st, ENRManager.init [("node:pub:k", ⟨5, [("secp256k1", "pub:k"), ("q", "r")], "s5"⟩)]
        ⟨"k"⟩ (some [("foo", "bar")]) = Except.ok st ∧
      st.enr.sequence_number = 6 ∧
      lookupKV st.enr.kv_pairs "foo" = some "bar" ∧
      (∀ k, containsKey (⟨5, [("secp256k1", "pub:k"), ("q", "r")], "s5"⟩ : ENR).kv_pairs k = true →
        containsKey st.enr.kv_pairs k = true)) :=
  ⟨by decide, by rfl,
   init_reconciliation_scenario [("node:pub:k", ⟨5, [("secp256k1", "pub:k"), ("q", "r")], "s5"⟩)]
     ⟨"k"⟩ ⟨5, [("secp256k1", "pub:k"), ("q", "r")], "s5"⟩
     (by decide) (by rfl) (by rfl) (by decide)⟩

/-- Claim C1 (counterexample): on a store hit the constructor does NOT
replay only the caller's original pairs.  With an empty caller pair set
and a stored sequence-number-5 record lacking the `b"id"` key, the code
replays the minimal record's pairs (including the injected identity
defaults) and bumps the sequence number to 6, whereas replaying the
caller's original (empty) pair set would leave it at 5. -/
theorem init_reconciliation_replays_defaults_cex :
    ((ENRManager.init [("node:pub:k", ⟨5, [("secp256k1", "pub:k")], "oldsig"⟩)]
        ⟨"k"⟩ none).toOption.map (fun st => st.enr.sequence_number)) = some 6 ∧
    ((ENRManager.initReplayingCallerPairs [("node:pub:k", ⟨5, [("secp256k1", "pub:k")], "oldsig"⟩)]
        ⟨"k"⟩ none).toOption.map (fun st => st.enr.sequence_number)) = some 5 :=
  ⟨rfl, rfl⟩

/-- Claim C1 (amended): on a store hit the stored record becomes current
and the MINIMAL record's full pair set (injected identity-scheme defaults
merged with the caller's pairs) is replayed through the standard update
path; the replay is a no-op — sequence number preserved — exactly when
the stored record already holds every replayed pair with an equal
value. -/
theorem init_reconciliation_replays_minimal_pairs (db : NodeDB) (pk : PrivateKey)
    (kvp : Option (List ENR_KV)) (m base : ENR)
    (hm : ENRManager.minimalEnr pk (kvp.getD []) = Except.ok m)
    (hhit : NodeDB.get_enr db (nodeId m) = some base) :
    (ENRManager.init db pk kvp =
      (match ENRManager.update { node_db := db, private_key := pk, enr := base,
                                 node_id := nodeId m } m.kv_pairs with
       | (st1, Except.ok _) => Except.ok st1
       | (_, Except.error e) => Except.error e)) ∧
    ((∀ p ∈ m.kv_pairs, lookupKV base.kv_pairs p.1 = some p.2) →
      ENRManager.init db pk kvp =
        Except.ok { node_db := db, private_key := pk, enr := base, node_id := nodeId m }) := by
  constructor
  · exact init_hit db pk kvp m base hm hhit
  · intro hall
    rw [init_hit db pk kvp m base hm hhit]
    rw [update_of_no_change ⟨db, pk, base, nodeId m⟩ m.kv_pairs hall]

theorem init_reconciliation_replays_minimal_pairs_witness :
    ENRManager.init [("node:pub:k", ⟨5, [("id", "v4"), ("secp256k1", "pub:k")], "oldsig"⟩)]
        ⟨"k"⟩ none =
      Except.ok ⟨[("node:pub:k", ⟨5, [("id", "v4"), ("secp256k1", "pub:k")], "oldsig"⟩)],
        ⟨"k"⟩, ⟨5, [("id", "v4"), ("secp256k1", "pub:k")], "oldsig"⟩, "node:pub:k"⟩ :=
  (init_reconciliation_replays_minimal_pairs
    [("node:pub:k", ⟨5, [("id", "v4"), ("secp256k1", "pub:k")], "oldsig"⟩)] ⟨"k"⟩ none
    ⟨1, [("id", "v4"), ("secp256k1", "pub:k")], "sig[1;id=v4;secp256k1=pub:k|k]"⟩
    ⟨5, [("id", "v4"), ("secp256k1", "pub:k")], "oldsig"⟩
    (by rfl) (by rfl)).2 (by decide)

/-- Claim C9: the queued update entry point hands the supplied pairs to
the queue one at a time in call order (so a multi-pair call appends the
pairs in order) while mutating no manager state; the consumer loop
applies each received pair via `update` with a single-element pair list,
draining the queue in FIFO order. -/
theorem async_update_queue_order :
    (∀ st q ps, ENRManager.async_update st q ps = (st, q ++ ps)) ∧
    (∀ st p, ENRManager.runLoop st [p] =
      (match ENRManager.update st [p] with
       | (s2, Except.ok _) => (s2, Except.ok ())
       | (s2, Except.error e) => (s2, Except.error e))) ∧
    (∀ st q1 q2 st1, ENRManager.runLoop st q1 = (st1, Except.ok ()) →
      ENRManager.runLoop st (q1 ++ q2) = ENRManager.runLoop st1 q2) := by
  refine ⟨?_, ?_, ?_⟩
  · intro st q ps
    unfold ENRManager.async_update
    refine congrArg (fun l => (st, l)) ?_
    induction ps generalizing q with
    | nil => simp
    | cons p rest ih =>
      rw [List.foldl_cons, ih]
      simp [channelSend]
  · intro st p
    cases hu : ENRManager.update st [p] with
    | mk s2 r =>
      cases r with
      | ok a => simp [ENRManager.runLoop, hu]
      | error e => simp [ENRManager.runLoop, hu]
  · intro st q1 q2 st1 h
    induction q1 generalizing st with
    | nil =>
      simp only [ENRManager.runLoop] at h
      cases h
      rfl
    | cons p rest ih =>
      rw [List.cons_append]
      simp only [ENRManager.runLoop] at h ⊢
      cases hu : ENRManager.update st [p] with
      | mk s2 r =>
        rw [hu] at h
        cases r with
        | ok a => exact ih s2 h
        | error e => simp at h

theorem async_update_queue_order_witness :
    ENRManager.async_update ⟨[], ⟨"k"⟩, ⟨1, [("a", "b")], "s"⟩, "n"⟩ []
        [("a", "b"), ("c", "d")] =
      (⟨[], ⟨"k"⟩, ⟨1, [("a", "b")], "s"⟩, "n"⟩, [("a", "b"), ("c", "d")]) ∧
    ENRManager.runLoop ⟨[], ⟨"k"⟩, ⟨1, [("a", "b")], "s"⟩, "n"⟩
        ([("a", "b")] ++ [("a", "b")]) =
      ENRManager.runLoop ⟨[], ⟨"k"⟩, ⟨1, [("a", "b")], "s"⟩, "n"⟩ [("a", "b")] :=
  ⟨async_update_queue_order.1 ⟨[], ⟨"k"⟩, ⟨1, [("a", "b")], "s"⟩, "n"⟩ []
      [("a", "b"), ("c", "d")],
   async_update_queue_order.2.2 ⟨[], ⟨"k"⟩, ⟨1, [("a", "b")], "s"⟩, "n"⟩
      [("a", "b")] [("a", "b")] ⟨[], ⟨"k"⟩, ⟨1, [("a", "b")], "s"⟩, "n"⟩ (by rfl)⟩

/-- Claim C10 (counterexample): store coherence does not survive every
update call.  Starting from a freshly constructed manager (which is
coherent), an update that changes the `b"secp256k1"` field writes the new
record under a DIFFERENT derived identity, so the store entry under the
manager's identity no longer equals the in-memory current record. -/
theorem store_coherence_cex :
    ((ENRManager.init [] ⟨"k"⟩ none).toOption.map
      (fun st0 => decide (StoreCoherent st0))) = some true ∧
    ((ENRManager.init [] ⟨"k"⟩ none).toOption.map
      (fun st0 => decide (StoreCoherent ((ENRManager.update st0 [("secp256k1", "zzz")]).1)))) =
        some false :=
  ⟨rfl, rfl⟩

/-- Claim C10 (amended): the store entry under the manager's derived
identity equals the in-memory current record after construction returns
(for any store whose pre-existing records sit under their own derived
identities, as every record written by `set_enr` does), and the equality
is preserved by every update call — idempotent, failed, or effective —
whose resulting record still derives the manager's identity (i.e. that
does not change the identity-determining public-key field). -/
theorem store_coherence_invariant :
    (∀ db pk kvp st, DBWellKeyed db → ENRManager.init db pk kvp = Except.ok st →
      StoreCoherent st) ∧
    (∀ st ps, StoreCoherent st →
      nodeId ((ENRManager.update st ps).1).enr = st.node_id →
      StoreCoherent ((ENRManager.update st ps).1)) := by
  constructor
  · intro db pk kvp st hwk hinit
    cases hm : ENRManager.minimalEnr pk (kvp.getD []) with
    | error e => simp [ENRManager.init, hm] at hinit
    | ok m =>
      cases hb : NodeDB.get_enr db (nodeId m) with
      | none =>
        rw [init_miss db pk kvp m hm hb] at hinit
        cases hinit
        exact get_enr_set_enr_self db m
      | some base =>
        rw [init_hit db pk kvp m base hm hb] at hinit
        have hkey : nodeId base = nodeId m := hwk (nodeId m) base hb
        by_cases hd : anyDiffers base m.kv_pairs
        · cases hs : toSignedEnr (base.sequence_number + 1)
              (mergeKV base.kv_pairs m.kv_pairs) pk with
          | ok newEnr =>
            rw [update_effective_ok ⟨db, pk, base, nodeId m⟩ m.kv_pairs newEnr hd hs] at hinit
            cases hinit
            show NodeDB.get_enr (NodeDB.set_enr db newEnr) (nodeId m) = some newEnr
            obtain ⟨-, hnkv, -⟩ := toSignedEnr_ok _ _ _ _ hs
            obtain ⟨-, hmkv, -⟩ := toSignedEnr_ok _ _ _ _ hm
            have hnode : nodeId newEnr = nodeId m := by
              unfold nodeId
              rw [hnkv, lookupKV_mergeKV, hmkv]
              rw [dictGet_eq_lookupKV (minimalKv pk (kvp.getD []))
                (nodupKeys_minimalKv pk (kvp.getD []))]
              cases hlook : lookupKV (minimalKv pk (kvp.getD [])) "secp256k1" with
              | some v => rfl
              | none =>
                show mkNodeId (lookupKV base.kv_pairs "secp256k1") = _
                rw [show mkNodeId (lookupKV base.kv_pairs "secp256k1") = nodeId base from rfl,
                  hkey]
                unfold nodeId
                rw [hmkv, hlook]
            rw [← hnode]
            exact get_enr_set_enr_self db newEnr
          | error e =>
            rw [update_effective_error ⟨db, pk, base, nodeId m⟩ m.kv_pairs e hd hs] at hinit
            simp at hinit
        · have hno := update_not_effective ⟨db, pk, base, nodeId m⟩ m.kv_pairs
            (by simpa using hd)
          rw [hno] at hinit
          cases hinit
          exact hb
  · intro st ps hc hid
    by_cases hd : anyDiffers st.enr ps
    · cases hs : toSignedEnr (st.enr.sequence_number + 1) (mergeKV st.enr.kv_pairs ps)
          st.private_key with
      | ok newEnr =>
        rw [update_effective_ok st ps newEnr hd hs] at hid ⊢
        show NodeDB.get_enr (NodeDB.set_enr st.node_db newEnr) st.node_id = some newEnr
        have hid2 : nodeId newEnr = st.node_id := hid
        rw [← hid2]
        exact get_enr_set_enr_self st.node_db newEnr
      | error e =>
        rw [update_effective_error st ps e hd hs]
        exact hc
    · rw [update_not_effective st ps (by simpa using hd)]
      exact hc

theorem store_coherence_invariant_witness :
    StoreCoherent (⟨[("node:pub:k",
        ⟨1, [("id", "v4"), ("secp256k1", "pub:k")], "sig[1;id=v4;secp256k1=pub:k|k]"⟩)],
      ⟨"k"⟩, ⟨1, [("id", "v4"), ("secp256k1", "pub:k")], "sig[1;id=v4;secp256k1=pub:k|k]"⟩,
      "node:pub:k"⟩ : ENRManagerState) ∧
    StoreCoherent ((ENRManager.update ⟨[("node:pub:k",
        ⟨1, [("id", "v4"), ("secp256k1", "pub:k")], "sig[1;id=v4;secp256k1=pub:k|k]"⟩)],
      ⟨"k"⟩, ⟨1, [("id", "v4"), ("secp256k1", "pub:k")], "sig[1;id=v4;secp256k1=pub:k|k]"⟩,
      "node:pub:k"⟩ [("x", "y")]).1) :=
  ⟨store_coherence_invariant.1 [] ⟨"k"⟩ none
    ⟨[("node:pub:k",
        ⟨1, [("id", "v4"), ("secp256k1", "pub:k")], "sig[1;id=v4;secp256k1=pub:k|k]"⟩)],
      ⟨"k"⟩, ⟨1, [("id", "v4"), ("secp256k1", "pub:k")], "sig[1;id=v4;secp256k1=pub:k|k]"⟩,
      "node:pub:k"⟩
    (fun _ _ h => nomatch h) (by rfl),
   store_coherence_invariant.2 ⟨[("node:pub:k",
        ⟨1, [("id", "v4"), ("secp256k1", "pub:k")], "sig[1;id=v4;secp256k1=pub:k|k]"⟩)],
      ⟨"k"⟩, ⟨1, [("id", "v4"), ("secp256k1", "pub:k")], "sig[1;id=v4;secp256k1=pub:k|k]"⟩,
      "node:pub:k"⟩ [("x", "y")] (by decide) (by decide)⟩

end DDHT
